import Mathlib

/-!
Verification of the youtube-comments-backend service (an Express server that
validates a batch of YouTube comments, normalizes them, renders a prompt,
calls the Gemini API and returns the formatted summary).

The repository holds two variants of the same server:
* `src/server.js` — embedded below in namespace `ServerJS`;
* `src/unnamed/part_000` — embedded below in namespace `Part000`.

Both share the same `preprocessComments` normalizer, which is embedded once
at top level.  Strings are modelled as their character lists (`String.data`);
JavaScript `\s` is modelled by the ASCII whitespace characters, which is the
set the inputs of interest use and on which `String.prototype.trim`, `\s+`
and `\n{3,}` agree with the model.  The upstream HTTP call is modelled by an
explicit `Upstream` argument, and the side effects a handler performs
(running the normalizer, issuing the outbound call) are recorded in an
explicit effect trace returned next to the response.
-/

/-- ASCII whitespace, the model of the JavaScript `\s` character class and of
the characters removed by `String.prototype.trim`. -/
def isWs (c : Char) : Bool :=
  c == ' ' || c == '\t' || c == '\n' || c == '\r' || c == '\x0b' || c == '\x0c'

/-- The sentence punctuation class `[.!?]` of `src/server.js` line 113. -/
def isPunct (c : Char) : Bool :=
  c == '.' || c == '!' || c == '?'

/-- The ASCII upper-case class `[A-Z]` of `src/server.js` line 113. -/
def isUpper (c : Char) : Bool :=
  'A' ≤ c && c ≤ 'Z'

/-- The JavaScript `\w` word-character class `[A-Za-z0-9_]`.  The spec claims
a no-word-character filter; the code has none, and this class is used to
state that counterexample. -/
def isWordChar (c : Char) : Bool :=
  ('a' ≤ c && c ≤ 'z') || ('A' ≤ c && c ≤ 'Z') || ('0' ≤ c && c ≤ '9') || c == '_'

/-- `String.prototype.trim`: drop leading and trailing whitespace. -/
def trimL (l : List Char) : List Char :=
  ((l.dropWhile isWs).reverse.dropWhile isWs).reverse

/-- The global replace `\s+ -> ' '`: every maximal run of whitespace becomes a
single space (`src/server.js` line 19 / `src/unnamed/part_000` line 19). -/
def collapseWs : List Char → List Char
  | [] => []
  | [c] => if isWs c then [' '] else [c]
  | c :: d :: rest =>
    if isWs c then
      if isWs d then collapseWs (d :: rest) else ' ' :: collapseWs (d :: rest)
    else c :: collapseWs (d :: rest)

/-- The denylist of `/^(first|second|third|early|late)$/i`, as lists of
lower-case characters. -/
def denyWords : List (List Char) :=
  ["first".data, "second".data, "third".data, "early".data, "late".data]

/-- Whether a comment matches `/^(first|second|third|early|late)$/i`
(whole-string, case-insensitive; `src/server.js` line 20). -/
def denyMatch (s : String) : Bool :=
  denyWords.contains (s.data.map Char.toLower)

/-- `comment.trim().replace(/\s+/g, ' ')` (`src/server.js` line 19). -/
def normalizeComment (c : String) : String :=
  String.mk (collapseWs (trimL c.data))

/-- `preprocessComments` (`src/server.js` lines 16–22, and identically
`src/unnamed/part_000` lines 16–22): keep truthy comments whose trimmed
length exceeds 5, normalize whitespace, drop denylist matches, and cap the
result at 120 items. -/
def preprocessComments (comments : List String) : List String :=
  ((((comments.filter fun c => c != "" && decide (5 < (trimL c.data).length)).map
      normalizeComment).filter fun c => !denyMatch c).take 120)

/-- The markdown-preserving replace `/\*\*(.*?)\*\*/g -> '**$1**'`
(`src/server.js` line 110): the replacement text rebuilds exactly the matched
text, so the pass is the identity transform on every string. -/
def mdPreserve (l : List Char) : List Char := l

/-- State for `collapseNl3Aux`: the number of consecutive newlines just
emitted, saturated at 2. -/
def collapseNl3Aux : Nat → List Char → List Char
  | _, [] => []
  | n, c :: rest =>
    if c = '\n' then
      if 2 ≤ n then collapseNl3Aux n rest else '\n' :: collapseNl3Aux (n + 1) rest
    else c :: collapseNl3Aux 0 rest

/-- The global replace `\n{3,} -> '\n\n'` (`src/server.js` line 111): every
run of three or more newlines becomes exactly two. -/
def collapseNl3 (l : List Char) : List Char := collapseNl3Aux 0 l

/-- `String.prototype.split('\n')` on character lists. -/
def splitNl : List Char → List (List Char)
  | [] => [[]]
  | c :: rest =>
    if c = '\n' then [] :: splitNl rest
    else
      match splitNl rest with
      | p :: ps => (c :: p) :: ps
      | [] => [[c]]

/-- `Array.prototype.join('\n\n')` on character lists. -/
def joinParas : List (List Char) → List Char
  | [] => []
  | [p] => p
  | p :: ps => p ++ '\n' :: '\n' :: joinParas ps

/-- The line pass `.split('\n').map(trim).filter(nonempty)` shared by both
variants of `formatSummary`. -/
def formatLines (l : List Char) : List (List Char) :=
  ((splitNl l).map trimL).filter fun p => !p.isEmpty

/-- Scanner for the global replace `/([.!?])\s*([A-Z])/g -> '$1 $2'`
(`src/server.js` line 113).  `none` is the plain scanning state; `some buf`
means a punctuation character was just emitted and `buf` holds the
whitespace seen since then, in reverse, not yet emitted.  When an upper-case
letter ends the lookahead the run is replaced by one space; otherwise the
buffered run is flushed verbatim and scanning resumes at the stopping
character, exactly like the regex engine, which can only start a match at a
`[.!?]` character. -/
def fixPunctAux : Option (List Char) → List Char → List Char
  | none, [] => []
  | some buf, [] => buf.reverse
  | none, c :: rest =>
    if isPunct c then c :: fixPunctAux (some []) rest
    else c :: fixPunctAux none rest
  | some buf, c :: rest =>
    if isWs c then fixPunctAux (some (c :: buf)) rest
    else if isUpper c then ' ' :: c :: fixPunctAux none rest
    else if isPunct c then buf.reverse ++ c :: fixPunctAux (some []) rest
    else buf.reverse ++ c :: fixPunctAux none rest

/-- The replace `/([.!?])\s*([A-Z])/g -> '$1 $2'` of `src/server.js`
line 113. -/
def fixPunct (l : List Char) : List Char := fixPunctAux none l

/-- Every character of the list is whitespace. -/
def allWs (m : List Char) : Prop := ∀ c ∈ m, isWs c = true

/-- The invariant characterizing fixed points of `fixPunct`: wherever a
`[.!?]` character is followed by a whitespace run and then an `[A-Z]`
character, that run is exactly one space. -/
def Clean (l : List Char) : Prop :=
  ∀ a c w d b, l = a ++ c :: (w ++ d :: b) → isPunct c = true → allWs w →
    isUpper d = true → w = [' ']

/-- The `Clean` condition at the very start of a list: a whitespace run
leading to an upper-case character is exactly one space. -/
def HeadCond (l : List Char) : Prop :=
  ∀ w d b, l = w ++ d :: b → allWs w → isUpper d = true → w = [' ']

/-- Boundary condition between two adjacent paragraphs: not both a trailing
sentence punctuation on the left and a leading capital on the right. -/
def BCrel (p q : List Char) : Prop :=
  ∀ cl cf, p.getLast? = some cl → q.head? = some cf → isPunct cl = true →
    isUpper cf = true → False

/-- `Array.prototype.join('\n')`, the inverse of `splitNl`. -/
def joinNl : List (List Char) → List Char
  | [] => []
  | [q] => q
  | q :: qs => q ++ '\n' :: joinNl qs

namespace Part000

/-- `formatSummary` of `src/unnamed/part_000` lines 96–105, on character
lists: preserve markdown (identity), collapse runs of 3+ newlines, trim,
split into lines, trim each line, drop empty lines, join with blank
lines. -/
def formatSummaryL (l : List Char) : List Char :=
  joinParas (formatLines (trimL (collapseNl3 (mdPreserve l))))

/-- `formatSummary` of `src/unnamed/part_000` lines 96–105. -/
def formatSummary (s : String) : String :=
  String.mk (formatSummaryL s.data)

/-- `createMarkdownAnalysisPrompt` of `src/unnamed/part_000` lines 25–61:
the template literal, with the comments joined by `'\n- '`, finally
trimmed. -/
def createMarkdownAnalysisPrompt (comments : List String) : String :=
  String.mk (trimL ("\nYou are an expert YouTube audience analyst. Your task is to analyze the following comments and produce a concise, actionable summary in **clear markdown**.\n\n## Comments to Analyze\n- " ++
    String.intercalate "\n- " comments ++
    "\n\n## Instructions\n- **Summarize the overall sentiment** (positive, negative, or mixed) in 1-2 sentences.\n- **Highlight the top 2-3 recurring themes or opinions** (e.g., praise, criticism, suggestions) using bullet points.\n- **Identify any outlier or unique perspectives** if present.\n- **Provide 2 actionable insights** for the video creator, each as a bullet point.\n- Use markdown headings, bold for key points, and bullet points for clarity.\n- Be concise, specific, and avoid generic statements.\n- Do not repeat information; focus on what matters most to creators.\n\n## Output Format Example\n\n### Sentiment\n**Overall:** Positive\n\n### Key Themes\n- **High praise** for video clarity and editing.\n- **Requests** for more in-depth examples.\n- **Mixed feedback** on pacing.\n\n### Unique Opinions\n- One viewer suggested adding subtitles for accessibility.\n\n### Actionable Insights\n- Consider adding more detailed examples in future videos.\n- Explore adding subtitles to improve accessibility.\n\nNow, analyze the comments and provide your summary in this format.\n").data)

end Part000

namespace ServerJS

/-- `formatSummary` of `src/server.js` lines 108–118, on character lists: as
the `part_000` variant but with the sentence-spacing replace
`/([.!?])\s*([A-Z])/g -> '$1 $2'` applied after trimming, before the line
pass. -/
def formatSummaryL (l : List Char) : List Char :=
  joinParas (formatLines (fixPunct (trimL (collapseNl3 (mdPreserve l)))))

/-- `formatSummary` of `src/server.js` lines 108–118. -/
def formatSummary (s : String) : String :=
  String.mk (formatSummaryL s.data)

/-- `createAnalysisPrompt` of `src/server.js` lines 25–57. -/
def createAnalysisPrompt (comments : List String) : String :=
  "You are an expert content analyst specializing in audience feedback interpretation. Analyze these YouTube comments to provide a comprehensive yet concise video assessment.\n\nCOMMENTS TO ANALYZE:\n• " ++
  String.intercalate "\n• " comments ++
  "\n\nANALYSIS FRAMEWORK:\nYour response must be exactly 3-4 paragraphs, each serving a specific purpose:\n\n**PARAGRAPH 1 - AUDIENCE RECEPTION:**\nDetermine overall sentiment (positive/mixed/negative) and audience engagement level. Identify the primary emotional reactions and general consensus.\n\n**PARAGRAPH 2 - CONTENT QUALITY INSIGHTS:**\nAnalyze what viewers specifically praised or criticized about the video content, presentation style, information accuracy, and production quality.\n\n**PARAGRAPH 3 - KEY THEMES & TOPICS:**\nIdentify the main subjects, concerns, or topics that dominate the discussion. Highlight recurring patterns in viewer feedback.\n\n**PARAGRAPH 4 - ACTIONABLE SUMMARY:**\nProvide a brief, balanced conclusion with the most important takeaways for content creators.\n\nWRITING GUIDELINES:\n- Write in a professional, analytical tone\n- Use specific, concrete language rather than vague generalizations\n- Include quantitative insights when patterns are clear (e.g., \"majority,\" \"several,\" \"few\")\n- Avoid repetitive phrasing between paragraphs\n- Focus on actionable insights rather than just listing opinions\n- Maintain objectivity while being decisive in your analysis\n\nBegin your analysis now:"

/-- `createSimplePrompt` of `src/server.js` lines 60–73. -/
def createSimplePrompt (comments : List String) : String :=
  "Analyze these YouTube comments and provide a concise, insightful summary in 2-3 paragraphs:\n\n• " ++
  String.intercalate "\n• " comments ++
  "\n\nFocus on:\n1. Overall audience sentiment and engagement\n2. Specific content feedback and key themes\n3. Most important takeaways for understanding viewer reception\n\nWrite professionally and analytically, avoiding generic statements. Be specific about what viewers liked, disliked, or found noteworthy."

end ServerJS

/-- The `comments` field of the request body: `invalid` covers a missing,
falsy or non-array value (all rejected by the same guard
`!comments || !Array.isArray(comments)`); `arr cs` is an array of strings. -/
inductive ReqComments where
  | invalid
  | arr (cs : List String)
deriving DecidableEq

/-- Outcome of the outbound Gemini call: `err` is a rejection of the axios
promise (network failure, timeout, non-2xx status); `ok t` is a resolved
response, with `t` the result of the optional chain
`response.data?.candidates?.[0]?.content?.parts?.[0]?.text`. -/
inductive Upstream where
  | err
  | ok (text : Option String)
deriving DecidableEq

/-- Side effects performed by a handler, in order: running
`preprocessComments` on the raw array, and issuing the outbound model call
with the rendered prompt. -/
inductive Effect where
  | preprocess (input : List String)
  | upstreamCall (prompt : String)
deriving DecidableEq

/-- A JSON response body: either an error object `{ error }` (no other
field) or the success object `{ summary, metadata }` with the metadata
fields that are a function of the request (`timestamp` and `requestId`,
which come from the clock, are outside the model). -/
inductive Body where
  | errObj (error : String)
  | okObj (summary : String) (commentsProcessed originalCount : Nat) (analysisType : String)
deriving DecidableEq

/-- An HTTP response: status code and JSON body. -/
structure Response where
  status : Nat
  body : Body
deriving DecidableEq

namespace Part000

/-- The `POST /summarize` handler of `src/unnamed/part_000` lines 107–187,
as a function of the request body and the upstream outcome, returning the
response together with the trace of side effects.  The `try`/`catch`
around the call maps an upstream rejection to a 500 with the generic
error body. -/
def summarize (b : ReqComments) (u : Upstream) : Response × List Effect :=
  match b with
  | .invalid =>
    (⟨400, .errObj "Invalid input: comments array is required and must not be empty"⟩, [])
  | .arr comments =>
    if comments.length = 0 then
      (⟨400, .errObj "Invalid input: comments array is required and must not be empty"⟩, [])
    else if 200 < comments.length then
      (⟨400, .errObj "Too many comments: maximum 200 comments allowed per request"⟩, [])
    else
      let processedComments := preprocessComments comments
      if processedComments.length < 3 then
        (⟨400, .errObj "Insufficient comments: at least 3 meaningful comments required for analysis"⟩,
          [.preprocess comments])
      else
        let prompt := createMarkdownAnalysisPrompt processedComments
        match u with
        | .err =>
          (⟨500, .errObj "Failed to generate summary"⟩,
            [.preprocess comments, .upstreamCall prompt])
        | .ok none =>
          (⟨502, .errObj "Invalid response from AI service"⟩,
            [.preprocess comments, .upstreamCall prompt])
        | .ok (some rawSummary) =>
          (⟨200, .okObj (formatSummary rawSummary) processedComments.length comments.length
              "markdown-structured"⟩,
            [.preprocess comments, .upstreamCall prompt])

end Part000

namespace ServerJS

/-- The `POST /summarize` handler of `src/server.js` lines 120–194.  This
variant has no `try`/`catch`: when the awaited call rejects, the handler
itself produces no response (the rejection escapes the async function), so
the response component is an `Option` and is `none` in that case. -/
def summarize (b : ReqComments) (u : Upstream) : Option Response × List Effect :=
  match b with
  | .invalid =>
    (some ⟨400, .errObj "Invalid input: comments array is required and must not be empty"⟩, [])
  | .arr comments =>
    if comments.length = 0 then
      (some ⟨400, .errObj "Invalid input: comments array is required and must not be empty"⟩, [])
    else if 200 < comments.length then
      (some ⟨400, .errObj "Too many comments: maximum 200 comments allowed per request"⟩, [])
    else
      let processedComments := preprocessComments comments
      if processedComments.length < 3 then
        (some ⟨400, .errObj "Insufficient comments: at least 3 meaningful comments required for analysis"⟩,
          [.preprocess comments])
      else
        let prompt :=
          if 20 ≤ processedComments.length then createAnalysisPrompt processedComments
          else createSimplePrompt processedComments
        match u with
        | .err =>
          (none, [.preprocess comments, .upstreamCall prompt])
        | .ok none =>
          (some ⟨502, .errObj "Invalid response from AI service"⟩,
            [.preprocess comments, .upstreamCall prompt])
        | .ok (some rawSummary) =>
          (some ⟨200, .okObj (formatSummary rawSummary) processedComments.length comments.length
              (if 20 ≤ processedComments.length then "detailed" else "simple")⟩,
            [.preprocess comments, .upstreamCall prompt])

end ServerJS

example : preprocessComments ["great video", "great video", "nice"] = ["great video", "great video"] := by decide
example : preprocessComments (preprocessComments ["a  b  c"]) = [] := by decide
example : Part000.formatSummary "Hi there.\n\n\n  And more.  " = "Hi there.\n\nAnd more." := by decide
example : ServerJS.formatSummary "Hi.\nAnd more." = "Hi. And more." := by decide

/-- Claim C1, counterexample: on the spec's own example input,
`preprocessComments` keeps the exact repeat, so `"great video"` does not
occur exactly once (it occurs twice) — there is no deduplication pass in
the code. -/
theorem c1_dedup_counterexample :
    ¬ (preprocessComments ["great video", "great video", "nice"]).count "great video" ≤ 1 := by
  decide

/-- Claim C1, amended: normalization does not deduplicate; exact repeats
that survive filtering are all kept, in input order.  On the example input
the result is `["great video", "great video"]` (the repeat occurs exactly
twice and the too-short `"nice"` is dropped). -/
theorem c1_no_dedup :
    preprocessComments ["great video", "great video", "nice"] = ["great video", "great video"] ∧
    (preprocessComments ["great video", "great video", "nice"]).count "great video" = 2 := by
  decide

/-- Claim C2: when the comments field is missing or not an array, or the
array is empty or holds more than 200 items, both variants of the handler
answer 400 with an error object, with an empty effect trace — neither the
normalizer nor the upstream call runs. -/
theorem c2_invalid_input_400_no_calls (b : ReqComments) (u : Upstream)
    (h : b = ReqComments.invalid ∨
      ∃ cs, b = ReqComments.arr cs ∧ (cs.length = 0 ∨ 200 < cs.length)) :
    (∃ msg, Part000.summarize b u = (⟨400, .errObj msg⟩, [])) ∧
    (∃ msg, ServerJS.summarize b u = (some ⟨400, .errObj msg⟩, [])) := by
  rcases h with rfl | ⟨cs, rfl, h0 | h200⟩
  · exact ⟨⟨_, rfl⟩, ⟨_, rfl⟩⟩
  · refine ⟨⟨"Invalid input: comments array is required and must not be empty", ?_⟩,
      ⟨"Invalid input: comments array is required and must not be empty", ?_⟩⟩ <;>
      simp [Part000.summarize, ServerJS.summarize, h0]
  · have h0 : ¬ cs.length = 0 := by omega
    refine ⟨⟨"Too many comments: maximum 200 comments allowed per request", ?_⟩,
      ⟨"Too many comments: maximum 200 comments allowed per request", ?_⟩⟩ <;>
      simp [Part000.summarize, ServerJS.summarize, h0, h200]

/-- Claim C2, witness at the empty array. -/
theorem c2_witness :
    (∃ msg, Part000.summarize (.arr []) (.ok none) = (⟨400, .errObj msg⟩, [])) ∧
    (∃ msg, ServerJS.summarize (.arr []) (.ok none) = (some ⟨400, .errObj msg⟩, [])) :=
  c2_invalid_input_400_no_calls (.arr []) (.ok none) (Or.inr ⟨[], rfl, Or.inl rfl⟩)

/-- Claim C3, counterexample: the `server.js` `/summarize` handler has no
`try`/`catch` around the awaited upstream call, so when the call rejects on
a validated request, the handler issues the call and then produces no
response at all — in particular, no 500 with a generic error body.  Shown
at a concrete three-comment request: the response component is `none` even
though the trace records the upstream call. -/
theorem c3_upstream_error_counterexample :
    ServerJS.summarize (.arr ["comment one!", "comment two!", "comment three!"]) .err =
      (none,
       [.preprocess ["comment one!", "comment two!", "comment three!"],
        .upstreamCall (ServerJS.createSimplePrompt
          (preprocessComments ["comment one!", "comment two!", "comment three!"]))]) :=
  rfl

/-- Claim C3, amended: when the upstream call rejects (throw / timeout) on a
request that passed validation, the `part_000` handler — whose `try`/`catch`
implements this — answers 500 with a body that is exactly the error object
carrying the generic message, no summary and no internal detail; the
`server.js` handler has no `try`/`catch`, so the rejection escapes it and
that handler itself produces no response. -/
theorem c3_upstream_error_amended (cs : List String)
    (h1 : cs.length ≠ 0) (h2 : cs.length ≤ 200)
    (h3 : 3 ≤ (preprocessComments cs).length) :
    Part000.summarize (.arr cs) .err =
      (⟨500, .errObj "Failed to generate summary"⟩,
       [.preprocess cs,
        .upstreamCall (Part000.createMarkdownAnalysisPrompt (preprocessComments cs))]) ∧
    (ServerJS.summarize (.arr cs) .err).1 = none := by
  have h2' : ¬ 200 < cs.length := by omega
  have h3' : ¬ (preprocessComments cs).length < 3 := by omega
  constructor
  · simp [Part000.summarize, h1, h2', h3']
  · simp [ServerJS.summarize, h1, h2', h3']

/-- Claim C3, witness at a concrete three-comment request. -/
theorem c3_witness :
    (Part000.summarize (.arr ["comment one!", "comment two!", "comment three!"]) .err =
      (⟨500, .errObj "Failed to generate summary"⟩,
       [.preprocess ["comment one!", "comment two!", "comment three!"],
        .upstreamCall (Part000.createMarkdownAnalysisPrompt
          (preprocessComments ["comment one!", "comment two!", "comment three!"]))])) ∧
    (ServerJS.summarize (.arr ["comment one!", "comment two!", "comment three!"])
      .err).1 = none :=
  c3_upstream_error_amended _ (by decide) (by decide) (by decide)

/-- Claim C4: a valid request (non-empty, at most 200 comments) whose
normalized comment count is below 3 gets a 400 from both variants, and the
effect trace holds only the normalizer run — the upstream model is not
called. -/
theorem c4_insufficient_400_no_upstream (cs : List String) (u : Upstream)
    (h1 : cs.length ≠ 0) (h2 : cs.length ≤ 200)
    (h3 : (preprocessComments cs).length < 3) :
    Part000.summarize (.arr cs) u =
      (⟨400, .errObj "Insufficient comments: at least 3 meaningful comments required for analysis"⟩,
       [Effect.preprocess cs]) ∧
    ServerJS.summarize (.arr cs) u =
      (some ⟨400, .errObj "Insufficient comments: at least 3 meaningful comments required for analysis"⟩,
       [Effect.preprocess cs]) := by
  have h2' : ¬ 200 < cs.length := by omega
  constructor <;> simp [Part000.summarize, ServerJS.summarize, h1, h2', h3]

/-- Claim C4, witness at a one-comment request. -/
theorem c4_witness :
    Part000.summarize (.arr ["hi"]) (.ok none) =
      (⟨400, .errObj "Insufficient comments: at least 3 meaningful comments required for analysis"⟩,
       [Effect.preprocess ["hi"]]) ∧
    ServerJS.summarize (.arr ["hi"]) (.ok none) =
      (some ⟨400, .errObj "Insufficient comments: at least 3 meaningful comments required for analysis"⟩,
       [Effect.preprocess ["hi"]]) :=
  c4_insufficient_400_no_upstream ["hi"] (.ok none) (by decide) (by decide) (by decide)

/-- Heads surviving `dropWhile isWs` are not whitespace. -/
theorem head?_dropWhile_ws (l : List Char) :
    ∀ c, (l.dropWhile isWs).head? = some c → isWs c = false := by
  induction l with
  | nil => intro c h; simp at h
  | cons a t ih =>
    intro c h
    by_cases ha : isWs a
    · rw [List.dropWhile_cons_of_pos ha] at h; exact ih c h
    · rw [List.dropWhile_cons_of_neg ha] at h
      simp only [List.head?_cons, Option.some.injEq] at h
      subst h
      simpa using ha

/-- `dropWhile isWs` is the identity when the head is not whitespace. -/
theorem dropWhile_ws_eq_self_of_head (l : List Char)
    (h : ∀ c, l.head? = some c → isWs c = false) : l.dropWhile isWs = l := by
  cases l with
  | nil => rfl
  | cons a t => exact List.dropWhile_cons_of_neg (by simp [h a rfl])

/-- `dropWhile isWs` is idempotent. -/
theorem dropWhile_ws_idem (l : List Char) :
    (l.dropWhile isWs).dropWhile isWs = l.dropWhile isWs :=
  dropWhile_ws_eq_self_of_head _ (head?_dropWhile_ws l)

/-- `trimL` is the identity on lists with no leading and no trailing
whitespace. -/
theorem trimL_eq_self (l : List Char)
    (h1 : l.dropWhile isWs = l) (h2 : l.reverse.dropWhile isWs = l.reverse) :
    trimL l = l := by
  unfold trimL; rw [h1, h2, List.reverse_reverse]

/-- A trimmed list has no leading whitespace character. -/
theorem head?_trimL_not_ws (l : List Char) :
    ∀ c, (trimL l).head? = some c → isWs c = false := by
  intro c h
  unfold trimL at h
  rw [List.head?_reverse] at h
  obtain ⟨t, ht⟩ := List.dropWhile_suffix (l := (l.dropWhile isWs).reverse) isWs
  have hD : (l.dropWhile isWs).reverse.dropWhile isWs ≠ [] := by
    intro hnil; rw [hnil] at h; simp at h
  have hg : ((l.dropWhile isWs).reverse.dropWhile isWs).getLast? =
      ((l.dropWhile isWs).reverse).getLast? := by
    conv_rhs => rw [← ht]
    exact (List.getLast?_append_of_ne_nil t hD).symm
  rw [hg, List.getLast?_reverse] at h
  exact head?_dropWhile_ws l c h

/-- A trimmed list has no trailing whitespace character. -/
theorem getLast?_trimL_not_ws (l : List Char) :
    ∀ c, (trimL l).getLast? = some c → isWs c = false := by
  intro c h
  unfold trimL at h
  rw [List.getLast?_reverse] at h
  exact head?_dropWhile_ws _ c h

/-- `trimL` is idempotent. -/
theorem trimL_trimL (l : List Char) : trimL (trimL l) = trimL l := by
  apply trimL_eq_self
  · exact dropWhile_ws_eq_self_of_head _ (head?_trimL_not_ws l)
  · apply dropWhile_ws_eq_self_of_head
    intro c h
    rw [List.head?_reverse] at h
    exact getLast?_trimL_not_ws l c h

/-- `collapseWs` passes a non-whitespace head through unchanged. -/
theorem collapseWs_cons_of_neg {c : Char} (t : List Char) (h : isWs c = false) :
    collapseWs (c :: t) = c :: collapseWs t := by
  cases t with
  | nil => simp [collapseWs, h]
  | cons d r => simp [collapseWs, h]

/-- `collapseWs` never maps a non-empty list to the empty list. -/
theorem collapseWs_ne_nil {l : List Char} (h : l ≠ []) : collapseWs l ≠ [] := by
  induction l with
  | nil => exact absurd rfl h
  | cons c t ih =>
    cases t with
    | nil => simp only [collapseWs]; split <;> simp
    | cons d r =>
      by_cases hc : isWs c
      · by_cases hd : isWs d
        · simpa [collapseWs, hc, hd] using ih (by simp)
        · simp [collapseWs, hc, hd]
      · simp [collapseWs, hc]

/-- `collapseWs` keeps a non-whitespace head. -/
theorem head?_collapseWs (l : List Char) (h : ∀ c, l.head? = some c → isWs c = false) :
    ∀ c, (collapseWs l).head? = some c → isWs c = false := by
  cases l with
  | nil => intro c hc; simp [collapseWs] at hc
  | cons a t =>
    have ha := h a rfl
    rw [collapseWs_cons_of_neg t ha]
    intro c hc
    simp only [List.head?_cons, Option.some.injEq] at hc
    subst hc; exact ha

/-- `collapseWs` keeps a non-whitespace last character. -/
theorem getLast?_collapseWs (l : List Char) (h : ∀ c, l.getLast? = some c → isWs c = false) :
    ∀ c, (collapseWs l).getLast? = some c → isWs c = false := by
  induction l with
  | nil => intro c hc; simp [collapseWs] at hc
  | cons a t ih =>
    cases t with
    | nil =>
      have ha := h a rfl
      intro c hc
      rw [collapseWs_cons_of_neg [] ha] at hc
      simp only [collapseWs, List.getLast?_singleton, Option.some.injEq] at hc
      subst hc; exact ha
    | cons d r =>
      have ht : ∀ c, (d :: r).getLast? = some c → isWs c = false := by
        intro c hc; exact h c (by rw [List.getLast?_cons_cons]; exact hc)
      by_cases hc : isWs a
      · by_cases hd : isWs d
        · intro c hcc
          apply ih ht c
          simpa [collapseWs, hc, hd] using hcc
        · intro c hcc
          rw [show collapseWs (a :: d :: r) = ' ' :: collapseWs (d :: r) from by
            simp [collapseWs, hc, hd]] at hcc
          rw [show (' ' :: collapseWs (d :: r)).getLast? = (collapseWs (d :: r)).getLast? from by
            cases hcoll : collapseWs (d :: r) with
            | nil => exact absurd hcoll (collapseWs_ne_nil (by simp))
            | cons x xs => rw [List.getLast?_cons_cons]] at hcc
          exact ih ht c hcc
      · intro c hcc
        rw [collapseWs_cons_of_neg _ (by revert hc; cases isWs a <;> simp)] at hcc
        rw [show (a :: collapseWs (d :: r)).getLast? = (collapseWs (d :: r)).getLast? from by
          cases hcoll : collapseWs (d :: r) with
          | nil => exact absurd hcoll (collapseWs_ne_nil (by simp))
          | cons x xs => rw [List.getLast?_cons_cons]] at hcc
        exact ih ht c hcc

/-- `collapseWs` is idempotent. -/
theorem collapseWs_idem (l : List Char) : collapseWs (collapseWs l) = collapseWs l := by
  induction l with
  | nil => rfl
  | cons a t ih =>
    cases t with
    | nil =>
      by_cases ha : isWs a
      · simp [collapseWs, ha]
      · simp [collapseWs, ha]
    | cons d r =>
      by_cases ha : isWs a
      · by_cases hd : isWs d
        · simpa [collapseWs, ha, hd] using ih
        · have hstep : collapseWs (a :: d :: r) = ' ' :: collapseWs (d :: r) := by
            simp [collapseWs, ha, hd]
          rw [hstep]
          have hdr : collapseWs (d :: r) = d :: collapseWs r :=
            collapseWs_cons_of_neg _ (by revert hd; cases isWs d <;> simp)
          rw [hdr]
          have : collapseWs (' ' :: d :: collapseWs r) = ' ' :: collapseWs (d :: collapseWs r) := by
            simp [collapseWs, hd]
          rw [this, ← hdr, ih, hdr]
      · have ha' : isWs a = false := by revert ha; cases isWs a <;> simp
        rw [collapseWs_cons_of_neg _ ha', collapseWs_cons_of_neg _ ha', ih]

/-- The normalized form `collapseWs (trimL l)` is already trimmed. -/
theorem trimL_collapseWs_trimL (l : List Char) :
    trimL (collapseWs (trimL l)) = collapseWs (trimL l) := by
  apply trimL_eq_self
  · exact dropWhile_ws_eq_self_of_head _ (head?_collapseWs _ (head?_trimL_not_ws l))
  · apply dropWhile_ws_eq_self_of_head
    intro c h
    rw [List.head?_reverse] at h
    exact getLast?_collapseWs _ (getLast?_trimL_not_ws l) c h

/-- `normalizeComment` is idempotent. -/
theorem normalizeComment_idem (s : String) :
    normalizeComment (normalizeComment s) = normalizeComment s := by
  show String.mk (collapseWs (trimL (collapseWs (trimL s.data)))) =
    String.mk (collapseWs (trimL s.data))
  rw [trimL_collapseWs_trimL, collapseWs_idem]

/-- Membership in the output of `preprocessComments`: the element is the
normalized form of some input comment that passed the truthiness/length
filter, and it does not match the denylist. -/
theorem mem_preprocess {y : String} {cs : List String} (h : y ∈ preprocessComments cs) :
    denyMatch y = false ∧
    ∃ c ∈ cs, c ≠ "" ∧ 5 < (trimL c.data).length ∧ y = normalizeComment c := by
  unfold preprocessComments at h
  have h1 := List.mem_of_mem_take h
  rw [List.mem_filter] at h1
  obtain ⟨h2, hdeny⟩ := h1
  rw [List.mem_map] at h2
  obtain ⟨c, hc, rfl⟩ := h2
  rw [List.mem_filter] at hc
  obtain ⟨hcs, hcond⟩ := hc
  rw [Bool.and_eq_true] at hcond
  obtain ⟨hne, hlen⟩ := hcond
  refine ⟨by simpa using hdeny, c, hcs, by simpa using hne, of_decide_eq_true hlen, rfl⟩

/-- Claim C5: when every input comment survives both filters and there are
at least 120 of them, `preprocessComments` returns exactly the first 120,
normalized, in input order — the configured cap of this code is 120
(`.slice(0, 120)`). -/
theorem c5_cap_120 (cs : List String)
    (hall : ∀ c ∈ cs, c ≠ "" ∧ 5 < (trimL c.data).length ∧
      denyMatch (normalizeComment c) = false)
    (hlen : 120 ≤ cs.length) :
    preprocessComments cs = (cs.take 120).map normalizeComment ∧
    (preprocessComments cs).length = 120 := by
  have h1 : cs.filter (fun c => c != "" && decide (5 < (trimL c.data).length)) = cs := by
    apply List.filter_eq_self.mpr
    intro a ha
    obtain ⟨hne, hl, _⟩ := hall a ha
    simp [hne, hl]
  have h2 : (cs.map normalizeComment).filter (fun c => !denyMatch c) =
      cs.map normalizeComment := by
    apply List.filter_eq_self.mpr
    intro b hb
    rw [List.mem_map] at hb
    obtain ⟨a, ha, rfl⟩ := hb
    simp [(hall a ha).2.2]
  constructor
  · show (((cs.filter fun c => c != "" && decide (5 < (trimL c.data).length)).map
        normalizeComment).filter fun c => !denyMatch c).take 120 =
      (cs.take 120).map normalizeComment
    rw [h1, h2, List.map_take]
  · show ((((cs.filter fun c => c != "" && decide (5 < (trimL c.data).length)).map
        normalizeComment).filter fun c => !denyMatch c).take 120).length = 120
    rw [h1, h2, List.length_take, List.length_map]
    omega

/-- Claim C5, witness at 121 copies of a surviving comment. -/
theorem c5_witness :
    (∀ c ∈ List.replicate 121 "valid witness comment", c ≠ "" ∧
      5 < (trimL c.data).length ∧ denyMatch (normalizeComment c) = false) ∧
    120 ≤ (List.replicate 121 "valid witness comment").length ∧
    preprocessComments (List.replicate 121 "valid witness comment") =
      ((List.replicate 121 "valid witness comment").take 120).map normalizeComment :=
  ⟨by decide, by decide,
    (c5_cap_120 (List.replicate 121 "valid witness comment") (by decide) (by decide)).1⟩

/-- Claim C6, counterexample: `preprocessComments` is not idempotent.  The
length filter runs on the trimmed but not yet whitespace-collapsed comment,
so `"a  b  c"` (trimmed length 7) is kept and normalized to `"a b c"`
(length 5), which the second pass then drops. -/
theorem c6_idempotent_counterexample :
    preprocessComments (preprocessComments ["a  b  c"]) ≠
      preprocessComments ["a  b  c"] := by
  decide

/-- Claim C6, amended: `preprocessComments` is idempotent on every input
whose output comments all still exceed the minimum length of 5 — the only
way a second pass can differ is a kept comment whose whitespace collapsing
shrank it to at most 5 characters. -/
theorem c6_idempotent_amended (cs : List String)
    (h : ∀ y ∈ preprocessComments cs, 5 < y.length) :
    preprocessComments (preprocessComments cs) = preprocessComments cs := by
  have key : ∀ y ∈ preprocessComments cs,
      trimL y.data = y.data ∧ normalizeComment y = y ∧ denyMatch y = false := by
    intro y hy
    obtain ⟨hdeny, c, _, _, _, hyc⟩ := mem_preprocess hy
    subst hyc
    exact ⟨trimL_collapseWs_trimL c.data, normalizeComment_idem c, hdeny⟩
  have h1 : (preprocessComments cs).filter
      (fun c => c != "" && decide (5 < (trimL c.data).length)) = preprocessComments cs := by
    apply List.filter_eq_self.mpr
    intro y hy
    have hlen := h y hy
    have hne : y ≠ "" := by
      intro h0; rw [h0] at hlen; exact absurd hlen (by decide)
    rw [Bool.and_eq_true]
    refine ⟨by simpa using hne, ?_⟩
    rw [(key y hy).1]
    exact decide_eq_true hlen
  have h2 : (preprocessComments cs).map normalizeComment = preprocessComments cs := by
    have := List.map_congr_left (fun y hy => ((key y hy).2.1 : normalizeComment y = id y))
    simpa using this
  have h3 : (preprocessComments cs).filter (fun c => !denyMatch c) =
      preprocessComments cs := by
    apply List.filter_eq_self.mpr
    intro y hy
    simp [(key y hy).2.2]
  have h4 : (preprocessComments cs).take 120 = preprocessComments cs := by
    apply List.take_of_length_le
    show ((((cs.filter fun c => c != "" && decide (5 < (trimL c.data).length)).map
        normalizeComment).filter fun c => !denyMatch c).take 120).length ≤ 120
    rw [List.length_take]
    exact min_le_left _ _
  show ((((preprocessComments cs).filter
      fun c => c != "" && decide (5 < (trimL c.data).length)).map
      normalizeComment).filter fun c => !denyMatch c).take 120 = preprocessComments cs
  rw [h1, h2, h3, h4]

/-- Claim C6, witness: a single long comment with no repeated whitespace. -/
theorem c6_witness :
    (∀ y ∈ preprocessComments ["abcdef"], 5 < y.length) ∧
    preprocessComments (preprocessComments ["abcdef"]) = preprocessComments ["abcdef"] :=
  ⟨by decide, c6_idempotent_amended ["abcdef"] (by decide)⟩

set_option maxRecDepth 20000 in
/-- Claim C7, counterexample: `preprocessComments` has no URL filter, no
word-character requirement and no maximum-length cutoff.  A comment
containing the substring `"http://"`, a comment made only of `!` (no word
character), and an 801-character comment all survive unchanged. -/
theorem c7_filters_counterexample :
    preprocessComments ["visit http://spam.example now", "!!!!!!!"] =
      ["visit http://spam.example now", "!!!!!!!"] ∧
    (∃ a b, ("visit http://spam.example now").data = a ++ "http://".data ++ b) ∧
    (∀ c ∈ ("!!!!!!!" : String).data, isWordChar c = false) ∧
    preprocessComments [String.mk (List.replicate 801 'x')] =
      [String.mk (List.replicate 801 'x')] ∧
    800 < (String.mk (List.replicate 801 'x')).length := by
  refine ⟨by decide, ⟨"visit ".data, "spam.example now".data, by decide⟩, by decide,
    by decide, by decide⟩

/-- Claim C7, amended: the only discards `preprocessComments` performs are
falsy/short comments (trimmed length at most 5) and normalized comments
matching the denylist — every output element is the normalized form of an
input that passed the length filter, and no URL, word-character or
maximum-length condition is applied (see the counterexample). -/
theorem c7_filters_amended (cs : List String) (s : String)
    (h : s ∈ preprocessComments cs) :
    denyMatch s = false ∧
    ∃ c ∈ cs, c ≠ "" ∧ 5 < (trimL c.data).length ∧ s = normalizeComment c :=
  mem_preprocess h

/-- Claim C7, witness: the URL-carrying comment is in the output and is
characterized as stated. -/
theorem c7_witness :
    ("visit http://spam.example now" ∈
      preprocessComments ["visit http://spam.example now"]) ∧
    (denyMatch "visit http://spam.example now" = false ∧
      ∃ c ∈ ["visit http://spam.example now"], c ≠ "" ∧
        5 < (trimL c.data).length ∧
        "visit http://spam.example now" = normalizeComment c) :=
  ⟨by decide, c7_filters_amended ["visit http://spam.example now"]
    "visit http://spam.example now" (by decide)⟩

/-- The normalizer never returns more comments than it was given. -/
theorem preprocess_length_le (cs : List String) :
    (preprocessComments cs).length ≤ cs.length := by
  have t1 : (preprocessComments cs).length ≤
      (((cs.filter fun c => c != "" && decide (5 < (trimL c.data).length)).map
        normalizeComment).filter fun c => !denyMatch c).length := by
    show ((((cs.filter fun c => c != "" && decide (5 < (trimL c.data).length)).map
        normalizeComment).filter fun c => !denyMatch c).take 120).length ≤ _
    rw [List.length_take]; exact min_le_right _ _
  have t2 := List.length_filter_le (fun c => !denyMatch c)
    ((cs.filter fun c => c != "" && decide (5 < (trimL c.data).length)).map normalizeComment)
  have t3 := List.length_filter_le
    (fun c => c != "" && decide (5 < (trimL c.data).length)) cs
  rw [List.length_map] at t2
  omega

/-- The normalizer returns at most the cap of 120 comments. -/
theorem preprocess_length_le_120 (cs : List String) :
    (preprocessComments cs).length ≤ 120 := by
  show ((((cs.filter fun c => c != "" && decide (5 < (trimL c.data).length)).map
      normalizeComment).filter fun c => !denyMatch c).take 120).length ≤ 120
  rw [List.length_take]; exact min_le_left _ _

/-- Claim C8: in the `server.js` variant the template is a pure function of
the normalized comment count — the detailed template and the `"detailed"`
metadata tag at 20 or more processed comments, the simple template and the
`"simple"` tag below 20 — and every 200 response reports the tag matching
the prompt that was sent upstream. -/
theorem c8_variant_by_count (cs : List String) (u : Upstream) (s : String)
    (cp oc : Nat) (atag : String) (effs : List Effect)
    (h : ServerJS.summarize (.arr cs) u = (some ⟨200, .okObj s cp oc atag⟩, effs)) :
    (20 ≤ (preprocessComments cs).length →
      atag = "detailed" ∧
      effs = [.preprocess cs,
        .upstreamCall (ServerJS.createAnalysisPrompt (preprocessComments cs))]) ∧
    ((preprocessComments cs).length < 20 →
      atag = "simple" ∧
      effs = [.preprocess cs,
        .upstreamCall (ServerJS.createSimplePrompt (preprocessComments cs))]) := by
  by_cases h0 : cs.length = 0
  · simp [ServerJS.summarize, h0] at h
  · by_cases h200 : 200 < cs.length
    · simp [ServerJS.summarize, h0, h200] at h
    · by_cases h3 : (preprocessComments cs).length < 3
      · simp [ServerJS.summarize, h0, h200, h3] at h
      · cases u with
        | err => simp [ServerJS.summarize, h0, h200, h3] at h
        | ok t =>
          cases t with
          | none => simp [ServerJS.summarize, h0, h200, h3] at h
          | some raw =>
            by_cases h20 : 20 ≤ (preprocessComments cs).length
            · simp [ServerJS.summarize, h0, h200, h3, h20] at h
              refine ⟨fun _ => ⟨h.1.2.2.2.symm, h.2.symm⟩, fun hlt => absurd h20 (by omega)⟩
            · simp [ServerJS.summarize, h0, h200, h3, h20] at h
              refine ⟨fun hge => absurd hge h20, fun _ => ⟨h.1.2.2.2.symm, h.2.symm⟩⟩

/-- Claim C8, witness: three comments select the simple template and tag. -/
theorem c8_witness :
    ((20 ≤ (preprocessComments ["comment one!", "comment two!", "comment three!"]).length →
      "simple" = "detailed" ∧
      [Effect.preprocess ["comment one!", "comment two!", "comment three!"],
       Effect.upstreamCall (ServerJS.createSimplePrompt
         (preprocessComments ["comment one!", "comment two!", "comment three!"]))] =
      [Effect.preprocess ["comment one!", "comment two!", "comment three!"],
       Effect.upstreamCall (ServerJS.createAnalysisPrompt
         (preprocessComments ["comment one!", "comment two!", "comment three!"]))]) ∧
    ((preprocessComments ["comment one!", "comment two!", "comment three!"]).length < 20 →
      "simple" = "simple" ∧
      [Effect.preprocess ["comment one!", "comment two!", "comment three!"],
       Effect.upstreamCall (ServerJS.createSimplePrompt
         (preprocessComments ["comment one!", "comment two!", "comment three!"]))] =
      [Effect.preprocess ["comment one!", "comment two!", "comment three!"],
       Effect.upstreamCall (ServerJS.createSimplePrompt
         (preprocessComments ["comment one!", "comment two!", "comment three!"]))])) := by
  have h : ServerJS.summarize (.arr ["comment one!", "comment two!", "comment three!"])
      (.ok (some "Viewers happy.")) =
      (some ⟨200, .okObj (ServerJS.formatSummary "Viewers happy.")
        (preprocessComments ["comment one!", "comment two!", "comment three!"]).length
        (["comment one!", "comment two!", "comment three!"] : List String).length "simple"⟩,
       [Effect.preprocess ["comment one!", "comment two!", "comment three!"],
        Effect.upstreamCall (ServerJS.createSimplePrompt
          (preprocessComments ["comment one!", "comment two!", "comment three!"]))]) := by
    rfl
  exact c8_variant_by_count _ _ _ _ _ _ _ h

/-- Claim C10: whenever either handler variant returns a 200 response, the
metadata satisfies 3 ≤ commentsProcessed ≤ 120, commentsProcessed ≤
originalCount and originalCount ≤ 200. -/
theorem c10_metadata_bounds (b : ReqComments) (u : Upstream) (s : String)
    (cp oc : Nat) (atag : String) (effs : List Effect)
    (h : Part000.summarize b u = (⟨200, .okObj s cp oc atag⟩, effs) ∨
         ServerJS.summarize b u = (some ⟨200, .okObj s cp oc atag⟩, effs)) :
    3 ≤ cp ∧ cp ≤ 120 ∧ cp ≤ oc ∧ oc ≤ 200 := by
  cases b with
  | invalid =>
    rcases h with h | h <;> simp [Part000.summarize, ServerJS.summarize] at h
  | arr cs =>
    by_cases h0 : cs.length = 0
    · rcases h with h | h <;> simp [Part000.summarize, ServerJS.summarize, h0] at h
    · by_cases h200 : 200 < cs.length
      · rcases h with h | h <;> simp [Part000.summarize, ServerJS.summarize, h0, h200] at h
      · by_cases h3 : (preprocessComments cs).length < 3
        · rcases h with h | h <;>
            simp [Part000.summarize, ServerJS.summarize, h0, h200, h3] at h
        · have hb1 := preprocess_length_le cs
          have hb2 := preprocess_length_le_120 cs
          cases u with
          | err =>
            rcases h with h | h <;>
              simp [Part000.summarize, ServerJS.summarize, h0, h200, h3] at h
          | ok t =>
            cases t with
            | none =>
              rcases h with h | h <;>
                simp [Part000.summarize, ServerJS.summarize, h0, h200, h3] at h
            | some raw =>
              rcases h with h | h
              · simp [Part000.summarize, h0, h200, h3] at h
                obtain ⟨⟨_, hcp, hoc, _⟩, _⟩ := h
                omega
              · by_cases h20 : 20 ≤ (preprocessComments cs).length <;>
                  [skip; skip] <;>
                  · simp [ServerJS.summarize, h0, h200, h3, h20] at h
                    obtain ⟨⟨_, hcp, hoc, _⟩, _⟩ := h
                    omega

/-- Claim C10, witness at a concrete successful request. -/
theorem c10_witness :
    3 ≤ (preprocessComments ["comment one!", "comment two!", "comment three!"]).length ∧
    (preprocessComments ["comment one!", "comment two!", "comment three!"]).length ≤ 120 ∧
    (preprocessComments ["comment one!", "comment two!", "comment three!"]).length ≤
      (["comment one!", "comment two!", "comment three!"] : List String).length ∧
    (["comment one!", "comment two!", "comment three!"] : List String).length ≤ 200 :=
  c10_metadata_bounds (.arr ["comment one!", "comment two!", "comment three!"])
    (.ok (some "All good.")) (Part000.formatSummary "All good.") _ _
    "markdown-structured"
    [Effect.preprocess ["comment one!", "comment two!", "comment three!"],
     Effect.upstreamCall (Part000.createMarkdownAnalysisPrompt
       (preprocessComments ["comment one!", "comment two!", "comment three!"]))]
    (Or.inl rfl)

/-- Every character of a trimmed list is a character of the original. -/
theorem mem_trimL {a : Char} {l : List Char} (h : a ∈ trimL l) : a ∈ l := by
  unfold trimL at h
  rw [List.mem_reverse] at h
  have h2 : a ∈ (l.dropWhile isWs).reverse := (List.dropWhile_suffix isWs).subset h
  rw [List.mem_reverse] at h2
  exact (List.dropWhile_suffix isWs).subset h2

/-- `splitNl` never returns the empty list of pieces. -/
theorem splitNl_ne_nil (l : List Char) : splitNl l ≠ [] := by
  cases l with
  | nil => simp [splitNl]
  | cons c rest =>
    by_cases hc : c = '\n'
    · simp [splitNl, hc]
    · simp only [splitNl, if_neg hc]
      cases splitNl rest <;> simp

/-- Pieces produced by `splitNl` contain no newline. -/
theorem mem_splitNl_no_nl (l : List Char) : ∀ p ∈ splitNl l, '\n' ∉ p := by
  induction l with
  | nil => intro p hp; simp [splitNl] at hp; simp [hp]
  | cons c rest ih =>
    intro p hp
    by_cases hc : c = '\n'
    · rw [show splitNl (c :: rest) = [] :: splitNl rest from by simp [splitNl, hc]] at hp
      rcases List.mem_cons.mp hp with rfl | hp'
      · simp
      · exact ih p hp'
    · simp only [splitNl, if_neg hc] at hp
      cases hsp : splitNl rest with
      | nil => exact absurd hsp (splitNl_ne_nil rest)
      | cons q qs =>
        rw [hsp] at hp
        rcases List.mem_cons.mp hp with rfl | hp'
        · intro hmem
          rcases List.mem_cons.mp hmem with h1 | h2
          · exact hc h1.symm
          · exact ih q (by rw [hsp]; exact List.mem_cons_self q qs) h2
        · exact ih p (by rw [hsp]; exact List.mem_cons_of_mem q hp')

/-- Splitting `p ++ l` for a newline-free `p` prepends `p` to the first
piece of `splitNl l`. -/
theorem splitNl_append (p : List Char) (hp : '\n' ∉ p) (l : List Char) :
    ∃ q qs, splitNl l = q :: qs ∧ splitNl (p ++ l) = (p ++ q) :: qs := by
  induction p with
  | nil =>
    cases hsp : splitNl l with
    | nil => exact absurd hsp (splitNl_ne_nil l)
    | cons q qs => exact ⟨q, qs, rfl, by simp [hsp]⟩
  | cons c p' ih =>
    have hc : c ≠ '\n' := fun h => hp (by simp [h])
    obtain ⟨q, qs, h1, h2⟩ := ih (fun h => hp (List.mem_cons_of_mem c h))
    refine ⟨q, qs, h1, ?_⟩
    simp only [List.cons_append, splitNl, List.append_eq, if_neg hc, h2]

/-- The properties of the paragraphs produced by `formatLines`: each is
non-empty, trimmed and newline-free. -/
theorem formatLines_props (x : List Char) :
    ∀ p ∈ formatLines x, p ≠ [] ∧ trimL p = p ∧ '\n' ∉ p := by
  intro p hp
  unfold formatLines at hp
  rw [List.mem_filter] at hp
  obtain ⟨hmem, hne⟩ := hp
  rw [List.mem_map] at hmem
  obtain ⟨q, hq, rfl⟩ := hmem
  refine ⟨by simpa using hne, trimL_trimL q, ?_⟩
  intro hnl
  exact mem_splitNl_no_nl x q hq (mem_trimL hnl)

/-- Re-splitting a paragraph join recovers exactly the paragraphs, when they
are non-empty, trimmed and newline-free. -/
theorem formatLines_joinParas (ps : List (List Char))
    (h : ∀ p ∈ ps, p ≠ [] ∧ trimL p = p ∧ '\n' ∉ p) :
    formatLines (joinParas ps) = ps := by
  induction ps with
  | nil => rfl
  | cons p ps' ih =>
    obtain ⟨hne, htrim, hnl⟩ := h p (List.mem_cons_self p ps')
    cases ps' with
    | nil =>
      obtain ⟨q, qs, h1, h2⟩ := splitNl_append p hnl []
      rw [show splitNl ([] : List Char) = [[]] from rfl] at h1
      injection h1 with hq hqs
      subst hq
      subst hqs
      rw [List.append_nil] at h2
      show formatLines (joinParas [p]) = [p]
      unfold formatLines
      rw [show joinParas [p] = p from rfl, h2]
      simp [htrim, hne]
    | cons p2 ps'' =>
      have hJ := ih (fun r hr => h r (List.mem_cons_of_mem p hr))
      obtain ⟨q, qs, h1, h2⟩ := splitNl_append p hnl ('\n' :: '\n' :: joinParas (p2 :: ps''))
      rw [show splitNl ('\n' :: '\n' :: joinParas (p2 :: ps'')) =
          [] :: [] :: splitNl (joinParas (p2 :: ps'')) from by simp [splitNl]] at h1
      injection h1 with hq hrest
      subst hq
      show formatLines (p ++ '\n' :: '\n' :: joinParas (p2 :: ps'')) = p :: p2 :: ps''
      unfold formatLines
      rw [h2, ← hrest]
      simp only [List.append_nil, List.map_cons]
      rw [htrim, show trimL ([] : List Char) = [] from rfl]
      rw [List.filter_cons_of_pos (by simpa using hne), List.filter_cons_of_neg (by simp)]
      unfold formatLines at hJ
      rw [hJ]

/-- The newline scanner in state 0 copies a newline-free block verbatim. -/
theorem collapseNl3Aux_zero_append (p : List Char) (hp : '\n' ∉ p) (l : List Char) :
    collapseNl3Aux 0 (p ++ l) = p ++ collapseNl3Aux 0 l := by
  induction p with
  | nil => rfl
  | cons c p' ih =>
    have hc : c ≠ '\n' := fun h => hp (by simp [h])
    simp only [List.cons_append, collapseNl3Aux, List.append_eq, if_neg hc]
    rw [ih (fun h => hp (List.mem_cons_of_mem c h))]

/-- After two emitted newlines the scanner behaves like a fresh scan when
the next character is not a newline. -/
theorem collapseNl3Aux_two (l : List Char) (h : ∀ c, l.head? = some c → c ≠ '\n') :
    collapseNl3Aux 2 l = collapseNl3Aux 0 l := by
  cases l with
  | nil => rfl
  | cons c rest =>
    have hc := h c rfl
    simp [collapseNl3Aux, if_neg hc]

/-- The head of a paragraph join is the head of its first paragraph. -/
theorem head?_joinParas (p : List Char) (ps : List (List Char)) (hne : p ≠ []) :
    (joinParas (p :: ps)).head? = p.head? := by
  cases ps with
  | nil => rfl
  | cons q ps' =>
    show (p ++ '\n' :: '\n' :: joinParas (q :: ps')).head? = p.head?
    cases p with
    | nil => exact absurd rfl hne
    | cons a t => rfl

/-- A paragraph join starting from a non-empty paragraph is non-empty. -/
theorem joinParas_ne_nil (q : List Char) (ps : List (List Char)) (h : q ≠ []) :
    joinParas (q :: ps) ≠ [] := by
  cases ps with
  | nil => exact h
  | cons r ps' =>
    show q ++ '\n' :: '\n' :: joinParas (r :: ps') ≠ []
    simp

/-- A paragraph join of non-empty newline-free paragraphs has no run of
three newlines, so the newline collapse leaves it unchanged. -/
theorem collapseNl3_joinParas (ps : List (List Char))
    (h : ∀ p ∈ ps, p ≠ [] ∧ '\n' ∉ p) :
    collapseNl3 (joinParas ps) = joinParas ps := by
  show collapseNl3Aux 0 (joinParas ps) = joinParas ps
  induction ps with
  | nil => rfl
  | cons p ps' ih =>
    obtain ⟨hne, hnl⟩ := h p (List.mem_cons_self p ps')
    cases ps' with
    | nil =>
      show collapseNl3Aux 0 p = p
      simpa [collapseNl3Aux] using collapseNl3Aux_zero_append p hnl []
    | cons q ps'' =>
      obtain ⟨hq, hqnl⟩ := h q (by simp)
      have hhead : ∀ c, (joinParas (q :: ps'')).head? = some c → c ≠ '\n' := by
        intro c hc hceq
        rw [head?_joinParas q ps'' hq] at hc
        cases q with
        | nil => exact absurd rfl hq
        | cons a t =>
          simp only [List.head?_cons, Option.some.injEq] at hc
          exact hqnl (by rw [hc, hceq]; exact List.mem_cons_self _ _)
      show collapseNl3Aux 0 (p ++ '\n' :: '\n' :: joinParas (q :: ps'')) =
        p ++ '\n' :: '\n' :: joinParas (q :: ps'')
      rw [collapseNl3Aux_zero_append p hnl]
      rw [show collapseNl3Aux 0 ('\n' :: '\n' :: joinParas (q :: ps'')) =
          '\n' :: '\n' :: collapseNl3Aux 2 (joinParas (q :: ps'')) from by
        simp [collapseNl3Aux]]
      rw [collapseNl3Aux_two _ hhead]
      rw [ih (fun r hr => h r (List.mem_cons_of_mem p hr))]

/-- The last character of a paragraph join is the last character of one of
its (non-empty) paragraphs. -/
theorem getLast?_joinParas (ps : List (List Char)) (hps : ∀ p ∈ ps, p ≠ [])
    (hne : ps ≠ []) : ∃ q ∈ ps, (joinParas ps).getLast? = q.getLast? := by
  induction ps with
  | nil => exact absurd rfl hne
  | cons p ps' ih =>
    cases ps' with
    | nil => exact ⟨p, List.mem_cons_self _ _, rfl⟩
    | cons q0 ps'' =>
      obtain ⟨q, hqmem, hq⟩ := ih (fun r hr => hps r (List.mem_cons_of_mem p hr)) (by simp)
      refine ⟨q, List.mem_cons_of_mem p hqmem, ?_⟩
      show (p ++ '\n' :: '\n' :: joinParas (q0 :: ps'')).getLast? = q.getLast?
      rw [List.getLast?_append_of_ne_nil p (by simp)]
      have hJne : joinParas (q0 :: ps'') ≠ [] := joinParas_ne_nil q0 ps'' (hps q0 (by simp))
      rw [List.getLast?_cons_cons]
      cases hJ : joinParas (q0 :: ps'') with
      | nil => exact absurd hJ hJne
      | cons a t =>
        rw [List.getLast?_cons_cons]
        rw [hJ] at hq
        exact hq

/-- A paragraph join of non-empty trimmed paragraphs is itself trimmed. -/
theorem trimL_joinParas (ps : List (List Char))
    (h : ∀ p ∈ ps, p ≠ [] ∧ trimL p = p) :
    trimL (joinParas ps) = joinParas ps := by
  cases ps with
  | nil => rfl
  | cons p ps' =>
    obtain ⟨hne, htrim⟩ := h p (List.mem_cons_self _ _)
    apply trimL_eq_self
    · apply dropWhile_ws_eq_self_of_head
      intro c hc
      rw [head?_joinParas p ps' hne] at hc
      have hw := head?_trimL_not_ws p c
      rw [htrim] at hw
      exact hw hc
    · apply dropWhile_ws_eq_self_of_head
      intro c hc
      rw [List.head?_reverse] at hc
      obtain ⟨q, hqmem, hq⟩ := getLast?_joinParas (p :: ps') (fun r hr => (h r hr).1) (by simp)
      rw [hq] at hc
      have hw := getLast?_trimL_not_ws q c
      rw [(h q hqmem).2] at hw
      exact hw hc

/-- The `part_000` formatter pipeline is idempotent on character lists. -/
theorem part000_formatSummaryL_idem (l : List Char) :
    Part000.formatSummaryL (Part000.formatSummaryL l) = Part000.formatSummaryL l := by
  have hprops := formatLines_props (trimL (collapseNl3 l))
  show joinParas (formatLines (trimL (collapseNl3
      (joinParas (formatLines (trimL (collapseNl3 l))))))) =
    joinParas (formatLines (trimL (collapseNl3 l)))
  rw [collapseNl3_joinParas _ (fun p hp => ⟨(hprops p hp).1, (hprops p hp).2.2⟩)]
  rw [trimL_joinParas _ (fun p hp => ⟨(hprops p hp).1, (hprops p hp).2.1⟩)]
  rw [formatLines_joinParas _ hprops]

/-- A whitespace character is not sentence punctuation. -/
theorem ws_not_punct {c : Char} (h : isWs c = true) : isPunct c = false := by
  simp only [isWs, Bool.or_eq_true, beq_iff_eq] at h
  rcases h with ((((rfl | rfl) | rfl) | rfl) | rfl) | rfl <;> rfl

/-- A whitespace character is not upper case. -/
theorem ws_not_upper {c : Char} (h : isWs c = true) : isUpper c = false := by
  simp only [isWs, Bool.or_eq_true, beq_iff_eq] at h
  rcases h with ((((rfl | rfl) | rfl) | rfl) | rfl) | rfl <;> rfl

/-- An upper-case character is not whitespace. -/
theorem upper_not_ws {c : Char} (h : isUpper c = true) : isWs c = false := by
  cases hws : isWs c with
  | false => rfl
  | true => exact absurd h (by simp [ws_not_upper hws])

/-- Sentence punctuation is not upper case. -/
theorem punct_not_upper {c : Char} (h : isPunct c = true) : isUpper c = false := by
  simp only [isPunct, Bool.or_eq_true, beq_iff_eq] at h
  rcases h with (rfl | rfl) | rfl <;> rfl

/-- An upper-case character is not sentence punctuation. -/
theorem upper_not_punct {c : Char} (h : isUpper c = true) : isPunct c = false := by
  cases hp : isPunct c with
  | false => rfl
  | true => exact absurd h (by simp [punct_not_upper hp])

/-- The empty list is clean. -/
theorem Clean_nil : Clean [] := by
  intro a c w d b heq
  exact absurd heq (by simp)

/-- The tail of a clean list is clean. -/
theorem Clean_tail {x : Char} {l : List Char} (h : Clean (x :: l)) : Clean l := by
  intro a c w d b heq hp hw hu
  exact h (x :: a) c w d b (by rw [heq]; rfl) hp hw hu

/-- A clean cons whose head is punctuation constrains what follows. -/
theorem Clean_head {x : Char} {l : List Char} (h : Clean (x :: l))
    (hp : isPunct x = true) : HeadCond l := by
  intro w d b heq hw hu
  exact h [] x w d b (by rw [heq]; rfl) hp hw hu

/-- Building a clean cons: the tail is clean and, if the head is
punctuation, the head condition holds for the tail. -/
theorem Clean_cons {x : Char} {l : List Char} (hl : Clean l)
    (hx : isPunct x = true → HeadCond l) : Clean (x :: l) := by
  intro a c w d b heq hp hw hu
  cases a with
  | nil =>
    simp only [List.nil_append, List.cons.injEq] at heq
    obtain ⟨rfl, rfl⟩ := heq
    exact hx hp w d b rfl hw hu
  | cons y a' =>
    simp only [List.cons_append, List.cons.injEq] at heq
    exact hl a' c w d b heq.2 hp hw hu

/-- An all-whitespace list is clean. -/
theorem Clean_allWs {m : List Char} (hm : allWs m) : Clean m := by
  intro a c w d b heq hp _ _
  have hc : c ∈ m := by rw [heq]; exact List.mem_append_right a (List.mem_cons_self c _)
  exact absurd hp (by simp [ws_not_punct (hm c hc)])

/-- Prepending whitespace preserves cleanliness. -/
theorem Clean_append_allWs_left {m X : List Char} (hm : allWs m) (hX : Clean X) :
    Clean (m ++ X) := by
  induction m with
  | nil => exact hX
  | cons y m' ih =>
    have hy := hm y (List.mem_cons_self y m')
    exact Clean_cons (ih (fun c hc => hm c (List.mem_cons_of_mem y hc)))
      (fun hp => absurd hp (by simp [ws_not_punct hy]))

/-- An all-whitespace list satisfies the head condition vacuously. -/
theorem HeadCond_allWs {m : List Char} (hm : allWs m) : HeadCond m := by
  intro w d b heq hw hu
  have hd : d ∈ m := by rw [heq]; exact List.mem_append_right w (List.mem_cons_self d b)
  exact absurd hu (by simp [ws_not_upper (hm d hd)])

/-- Whitespace followed by a non-whitespace, non-upper character satisfies
the head condition vacuously. -/
theorem HeadCond_allWs_cons {m : List Char} {x : Char} {X : List Char}
    (hm : allWs m) (hxw : isWs x = false) (hxu : isUpper x = false) :
    HeadCond (m ++ x :: X) := by
  intro w d b heq hw hu
  rcases List.append_eq_append_iff.mp heq with ⟨a', hweq, hxeq⟩ | ⟨c', hmeq, hdeq⟩
  · cases a' with
    | nil =>
      simp only [List.nil_append] at hxeq
      injection hxeq with h1 _
      rw [← h1, hxu] at hu
      exact absurd hu (by simp)
    | cons y a'' =>
      simp only [List.cons_append] at hxeq
      injection hxeq with h1 _
      have hyw : y ∈ w := by
        rw [hweq]; exact List.mem_append_right m (List.mem_cons_self y a'')
      have hwsy := hw y hyw
      rw [← h1, hxw] at hwsy
      exact absurd hwsy (by simp)
  · cases c' with
    | nil =>
      simp only [List.nil_append] at hdeq
      injection hdeq with h1 _
      rw [h1, hxu] at hu
      exact absurd hu (by simp)
    | cons y c'' =>
      simp only [List.cons_append] at hdeq
      injection hdeq with h1 _
      have hym : y ∈ m := by
        rw [hmeq]; exact List.mem_append_right w (List.mem_cons_self y c'')
      have hwsy := hm y hym
      rw [← h1] at hwsy
      rw [ws_not_upper hwsy] at hu
      exact absurd hu (by simp)

/-- Joint induction for the identity property of the punctuation scanner on
clean input: in plain state the scan copies a clean list; in seek state,
when the invariant guarantees every whitespace-then-capital continuation
closes to a single space, the scan flushes the buffer and copies. -/
theorem fixPunct_id_of_clean (l : List Char) :
    (Clean l → fixPunctAux none l = l) ∧
    (∀ buf, Clean l →
      (∀ w d b, l = w ++ d :: b → allWs w → isUpper d = true →
        buf.reverse ++ w = [' ']) →
      fixPunctAux (some buf) l = buf.reverse ++ l) := by
  induction l with
  | nil =>
    refine ⟨fun _ => rfl, fun buf _ _ => ?_⟩
    show buf.reverse = buf.reverse ++ []
    rw [List.append_nil]
  | cons c rest ih =>
    obtain ⟨ih1, ih2⟩ := ih
    constructor
    · intro hcl
      by_cases hp : isPunct c = true
      · have h2 := ih2 [] (Clean_tail hcl) (fun w d b heq hws hu => by
          simpa using Clean_head hcl hp w d b heq hws hu)
        simp only [List.reverse_nil, List.nil_append] at h2
        simp only [fixPunctAux, if_pos hp, h2]
      · have h1 := ih1 (Clean_tail hcl)
        simp only [fixPunctAux, if_neg hp, h1]
    · intro buf hcl H
      by_cases hw : isWs c = true
      · have H' : ∀ w d b, rest = w ++ d :: b → allWs w → isUpper d = true →
            (c :: buf).reverse ++ w = [' '] := by
          intro w d b heq hws hu
          have hcw : allWs (c :: w) := by
            intro x hx
            rcases List.mem_cons.mp hx with rfl | hx'
            · exact hw
            · exact hws x hx'
          have hh := H (c :: w) d b (by rw [heq]; rfl) hcw hu
          rw [List.reverse_cons, List.append_assoc]
          simpa using hh
        have h2 := ih2 (c :: buf) (Clean_tail hcl) H'
        show fixPunctAux (some buf) (c :: rest) = buf.reverse ++ c :: rest
        simp only [fixPunctAux, if_pos hw, h2, List.reverse_cons, List.append_assoc,
          List.singleton_append]
      · by_cases hu : isUpper c = true
        · have hbuf : buf.reverse = [' '] := by
            simpa using H [] c rest rfl (fun x hx => absurd hx (List.not_mem_nil x)) hu
          have h1 := ih1 (Clean_tail hcl)
          show fixPunctAux (some buf) (c :: rest) = buf.reverse ++ c :: rest
          simp only [fixPunctAux, if_neg hw, if_pos hu, h1, hbuf, List.singleton_append]
        · by_cases hp : isPunct c = true
          · have h2 := ih2 [] (Clean_tail hcl) (fun w d b heq hws hu' => by
              simpa using Clean_head hcl hp w d b heq hws hu')
            simp only [List.reverse_nil, List.nil_append] at h2
            show fixPunctAux (some buf) (c :: rest) = buf.reverse ++ c :: rest
            simp only [fixPunctAux, if_neg hw, if_neg hu, if_pos hp, h2]
          · have h1 := ih1 (Clean_tail hcl)
            show fixPunctAux (some buf) (c :: rest) = buf.reverse ++ c :: rest
            simp only [fixPunctAux, if_neg hw, if_neg hu, if_neg hp, h1]

/-- The punctuation-spacing replace is the identity on clean strings. -/
theorem fixPunct_eq_self_of_clean {l : List Char} (h : Clean l) : fixPunct l = l :=
  (fixPunct_id_of_clean l).1 h

/-- The replaced segment `' ' :: c :: N` (single space before a capital)
satisfies the head condition. -/
theorem HeadCond_space_upper {c : Char} (N : List Char) (hu : isUpper c = true) :
    HeadCond (' ' :: c :: N) := by
  intro w d b heq hw hup
  cases w with
  | nil =>
    injection heq with h1 _
    rw [← h1] at hup
    exact absurd hup (by decide)
  | cons w0 w' =>
    injection heq with h1 h2
    cases w' with
    | nil =>
      rw [← h1]
    | cons w1 w'' =>
      injection h2 with h3 _
      have hws := hw w1 (by simp)
      rw [← h3, upper_not_ws hu] at hws
      exact absurd hws (by simp)

/-- Joint induction: the punctuation scanner always produces clean output,
and from seek state (with a whitespace buffer) the output also satisfies
the head condition. -/
theorem fixPunct_out_clean (l : List Char) :
    Clean (fixPunctAux none l) ∧
    (∀ buf, allWs buf →
      Clean (fixPunctAux (some buf) l) ∧ HeadCond (fixPunctAux (some buf) l)) := by
  induction l with
  | nil =>
    refine ⟨Clean_nil, fun buf hbuf => ?_⟩
    have hrev : allWs buf.reverse := fun c hc => hbuf c (List.mem_reverse.mp hc)
    exact ⟨Clean_allWs hrev, HeadCond_allWs hrev⟩
  | cons c rest ih =>
    obtain ⟨ih1, ih2⟩ := ih
    constructor
    · by_cases hp : isPunct c = true
      · simp only [fixPunctAux, if_pos hp]
        have h := ih2 [] (fun x hx => absurd hx (List.not_mem_nil x))
        exact Clean_cons h.1 (fun _ => h.2)
      · simp only [fixPunctAux, if_neg hp]
        exact Clean_cons ih1 (fun hp' => absurd hp' hp)
    · intro buf hbuf
      have hrev : allWs buf.reverse := fun x hx => hbuf x (List.mem_reverse.mp hx)
      by_cases hw : isWs c = true
      · simp only [fixPunctAux, if_pos hw]
        exact ih2 (c :: buf) (fun x hx => by
          rcases List.mem_cons.mp hx with rfl | hx'
          · exact hw
          · exact hbuf x hx')
      · have hw' : isWs c = false := by simpa using hw
        by_cases hu : isUpper c = true
        · simp only [fixPunctAux, if_neg hw, if_pos hu]
          constructor
          · exact Clean_cons
              (Clean_cons ih1 (fun hp' => absurd hp' (by simp [upper_not_punct hu])))
              (fun hp' => absurd hp' (by decide))
          · exact HeadCond_space_upper _ hu
        · have hu' : isUpper c = false := by simpa using hu
          by_cases hp : isPunct c = true
          · simp only [fixPunctAux, if_neg hw, if_neg hu, if_pos hp]
            have h := ih2 [] (fun x hx => absurd hx (List.not_mem_nil x))
            constructor
            · exact Clean_append_allWs_left hrev (Clean_cons h.1 (fun _ => h.2))
            · exact HeadCond_allWs_cons hrev hw' hu'
          · simp only [fixPunctAux, if_neg hw, if_neg hu, if_neg hp]
            constructor
            · exact Clean_append_allWs_left hrev (Clean_cons ih1 (fun hp' => absurd hp' hp))
            · exact HeadCond_allWs_cons hrev hw' hu'

/-- The output of the punctuation-spacing replace is clean. -/
theorem Clean_fixPunct (l : List Char) : Clean (fixPunct l) :=
  (fixPunct_out_clean l).1

/-- Cleanliness restricts to the right part of an append. -/
theorem Clean_append_right {X Y : List Char} (h : Clean (X ++ Y)) : Clean Y := by
  intro a c w d b heq hp hw hu
  exact h (X ++ a) c w d b (by rw [heq, List.append_assoc]) hp hw hu

/-- Cleanliness restricts to the left part of an append. -/
theorem Clean_append_left {X Y : List Char} (h : Clean (X ++ Y)) : Clean X := by
  intro a c w d b heq hp hw hu
  exact h a c w d (b ++ Y) (by rw [heq]; simp [List.append_assoc]) hp hw hu

/-- Trimming splits a list into whitespace margins around the trimmed
core. -/
theorem trim_decomp (q : List Char) :
    ∃ wa wb, allWs wa ∧ allWs wb ∧ q = wa ++ trimL q ++ wb := by
  refine ⟨q.takeWhile isWs, ((q.dropWhile isWs).reverse.takeWhile isWs).reverse,
    fun x hx => List.mem_takeWhile_imp hx,
    fun x hx => List.mem_takeWhile_imp (List.mem_reverse.mp hx), ?_⟩
  conv_lhs => rw [← List.takeWhile_append_dropWhile isWs q]
  rw [List.append_assoc]
  congr 1
  conv_lhs => rw [show q.dropWhile isWs = (q.dropWhile isWs).reverse.reverse from
    (List.reverse_reverse _).symm]
  conv_lhs => rw [← List.takeWhile_append_dropWhile isWs (q.dropWhile isWs).reverse]
  rw [List.reverse_append]
  rfl

/-- Cleanliness is preserved by trimming. -/
theorem Clean_trimL {q : List Char} (h : Clean q) : Clean (trimL q) := by
  obtain ⟨wa, wb, _, _, hdec⟩ := trim_decomp q
  rw [hdec, List.append_assoc] at h
  exact Clean_append_left (Clean_append_right h)

/-- A non-whitespace character of a list survives `dropWhile isWs`. -/
theorem mem_dropWhile_ws_of_not {x : Char} {l : List Char} (hx : x ∈ l)
    (hws : isWs x = false) : x ∈ l.dropWhile isWs := by
  induction l with
  | nil => exact absurd hx (List.not_mem_nil x)
  | cons c t ih =>
    by_cases hc : isWs c = true
    · rw [List.dropWhile_cons_of_pos hc]
      rcases List.mem_cons.mp hx with rfl | hx'
      · rw [hc] at hws; exact absurd hws (by simp)
      · exact ih hx'
    · rw [List.dropWhile_cons_of_neg hc]
      exact hx

/-- A non-whitespace character of a list survives trimming. -/
theorem mem_trimL_of_not_ws {x : Char} {l : List Char} (hx : x ∈ l)
    (hws : isWs x = false) : x ∈ trimL l := by
  unfold trimL
  rw [List.mem_reverse]
  exact mem_dropWhile_ws_of_not
    (List.mem_reverse.mpr (mem_dropWhile_ws_of_not hx hws)) hws

/-- A list that trims to nothing is all whitespace. -/
theorem trimL_eq_nil_allWs {q : List Char} (h : trimL q = []) : allWs q := by
  intro x hx
  cases hws : isWs x with
  | true => rfl
  | false =>
    have := mem_trimL_of_not_ws hx hws
    rw [h] at this
    exact absurd this (List.not_mem_nil x)

/-- The first piece of `splitNl` is an initial part of the input. -/
theorem splitNl_head_part (l : List Char) :
    ∀ q qs, splitNl l = q :: qs → ∃ t, q ++ t = l := by
  induction l with
  | nil =>
    intro q qs h
    rw [show splitNl ([] : List Char) = [[]] from rfl] at h
    injection h with h1 _
    exact ⟨[], by rw [← h1]; rfl⟩
  | cons c rest ih =>
    intro q qs h
    by_cases hc : c = '\n'
    · rw [show splitNl (c :: rest) = [] :: splitNl rest from by simp [splitNl, hc]] at h
      injection h with h1 _
      exact ⟨c :: rest, by rw [← h1]; rfl⟩
    · simp only [splitNl, if_neg hc] at h
      cases hsp : splitNl rest with
      | nil => exact absurd hsp (splitNl_ne_nil rest)
      | cons q0 qs0 =>
        rw [hsp] at h
        injection h with h1 h2
        obtain ⟨t, ht⟩ := ih q0 qs0 hsp
        exact ⟨t, by rw [← h1, List.cons_append, ht]⟩

/-- Every piece of `splitNl` occurs contiguously in the input. -/
theorem splitNl_mem_part {l : List Char} {p : List Char} (hp : p ∈ splitNl l) :
    ∃ s t, s ++ (p ++ t) = l := by
  induction l with
  | nil =>
    rw [show splitNl ([] : List Char) = [[]] from rfl] at hp
    rcases List.mem_cons.mp hp with rfl | h
    · exact ⟨[], [], rfl⟩
    · exact absurd h (List.not_mem_nil p)
  | cons c rest ih =>
    by_cases hc : c = '\n'
    · rw [show splitNl (c :: rest) = [] :: splitNl rest from by simp [splitNl, hc]] at hp
      rcases List.mem_cons.mp hp with rfl | hp'
      · exact ⟨[], c :: rest, rfl⟩
      · obtain ⟨s, t, hst⟩ := ih hp'
        exact ⟨c :: s, t, by rw [← hst]; rfl⟩
    · simp only [splitNl, if_neg hc] at hp
      cases hsp : splitNl rest with
      | nil => exact absurd hsp (splitNl_ne_nil rest)
      | cons q0 qs0 =>
        rw [hsp] at hp
        rcases List.mem_cons.mp hp with rfl | hp'
        · obtain ⟨t, ht⟩ := splitNl_head_part rest q0 qs0 hsp
          exact ⟨[], t, by rw [List.nil_append, List.cons_append, ht]⟩
        · obtain ⟨s, t, hst⟩ := ih (by rw [hsp]; exact List.mem_cons_of_mem q0 hp')
          exact ⟨c :: s, t, by rw [← hst]; rfl⟩

/-- Joining the pieces of `splitNl` with newlines recovers the input. -/
theorem joinNl_splitNl (l : List Char) : joinNl (splitNl l) = l := by
  induction l with
  | nil => rfl
  | cons c rest ih =>
    by_cases hc : c = '\n'
    · rw [show splitNl (c :: rest) = [] :: splitNl rest from by simp [splitNl, hc]]
      cases hsp : splitNl rest with
      | nil => exact absurd hsp (splitNl_ne_nil rest)
      | cons q0 qs0 =>
        show [] ++ '\n' :: joinNl (q0 :: qs0) = c :: rest
        rw [List.nil_append, hc]
        rw [hsp] at ih
        rw [ih]
    · simp only [splitNl, if_neg hc]
      cases hsp : splitNl rest with
      | nil => exact absurd hsp (splitNl_ne_nil rest)
      | cons q0 qs0 =>
        rw [hsp] at ih
        cases qs0 with
        | nil =>
          show c :: q0 = c :: rest
          rw [show joinNl [q0] = q0 from rfl] at ih
          rw [ih]
        | cons q1 qs1 =>
          show (c :: q0) ++ '\n' :: joinNl (q1 :: qs1) = c :: rest
          rw [show joinNl (q0 :: q1 :: qs1) = q0 ++ '\n' :: joinNl (q1 :: qs1) from rfl] at ih
          rw [List.cons_append, ih]

/-- The first kept paragraph of a piece list sits after an all-whitespace
margin in the newline join of the pieces. -/
theorem first_kept (qs : List (List Char)) (p' : List Char)
    (h : ((qs.map trimL).filter (fun p => !p.isEmpty)).head? = some p') :
    ∃ m rest', allWs m ∧ joinNl qs = m ++ p' ++ rest' := by
  induction qs with
  | nil => simp at h
  | cons q1 qs' ih =>
    by_cases h1 : trimL q1 = []
    · have hlist : ((q1 :: qs').map trimL).filter (fun p => !p.isEmpty) =
          (qs'.map trimL).filter (fun p => !p.isEmpty) := by
        rw [List.map_cons, List.filter_cons_of_neg (by simp [h1])]
      rw [hlist] at h
      obtain ⟨m', rest', hm', heq'⟩ := ih h
      cases qs' with
      | nil => simp at h
      | cons q2 qs'' =>
        refine ⟨q1 ++ '\n' :: m', rest', ?_, ?_⟩
        · intro x hx
          rcases List.mem_append.mp hx with hx1 | hx2
          · exact trimL_eq_nil_allWs h1 x hx1
          · rcases List.mem_cons.mp hx2 with rfl | hx3
            · rfl
            · exact hm' x hx3
        · show joinNl (q1 :: q2 :: qs'') = (q1 ++ '\n' :: m') ++ p' ++ rest'
          rw [show joinNl (q1 :: q2 :: qs'') = q1 ++ '\n' :: joinNl (q2 :: qs'') from rfl,
            heq']
          simp [List.append_assoc]
    · have hkeep : ((q1 :: qs').map trimL).filter (fun p => !p.isEmpty) =
          trimL q1 :: (qs'.map trimL).filter (fun p => !p.isEmpty) := by
        rw [List.map_cons, List.filter_cons_of_pos (by simpa using h1)]
      rw [hkeep] at h
      simp only [List.head?_cons, Option.some.injEq] at h
      obtain ⟨wa, wb, hwa, hwb, hdec⟩ := trim_decomp q1
      rw [h] at hdec
      cases qs' with
      | nil =>
        exact ⟨wa, wb, hwa, by rw [show joinNl [q1] = q1 from rfl, hdec]⟩
      | cons q2 qs'' =>
        refine ⟨wa, wb ++ '\n' :: joinNl (q2 :: qs''), hwa, ?_⟩
        rw [show joinNl (q1 :: q2 :: qs'') = q1 ++ '\n' :: joinNl (q2 :: qs'') from rfl, hdec]
        simp [List.append_assoc]

/-- Adjacent kept paragraphs of a clean string never pair a trailing
sentence punctuation with a leading capital: the whitespace between them
contains the splitting newline, which `Clean` would force to be a single
space. -/
theorem chain_of_clean (qs : List (List Char)) (hcl : Clean (joinNl qs)) :
    List.Chain' BCrel ((qs.map trimL).filter (fun p => !p.isEmpty)) := by
  induction qs with
  | nil => exact List.chain'_nil
  | cons q qs' ih =>
    have hrest : Clean (joinNl qs') := by
      cases qs' with
      | nil => exact Clean_nil
      | cons q2 qs'' =>
        rw [show joinNl (q :: q2 :: qs'') = q ++ '\n' :: joinNl (q2 :: qs'') from rfl] at hcl
        exact Clean_tail (Clean_append_right hcl)
    have IH := ih hrest
    by_cases h1 : trimL q = []
    · rw [List.map_cons, List.filter_cons_of_neg (by simp [h1])]
      exact IH
    · rw [List.map_cons, List.filter_cons_of_pos (by simpa using h1)]
      rw [List.chain'_cons']
      refine ⟨?_, IH⟩
      intro y hy
      rw [Option.mem_def] at hy
      intro cl cf hlast hhead hpunct hupper
      obtain ⟨m, rest', hm, heqJ⟩ := first_kept qs' y hy
      obtain ⟨wa, wb, hwa, hwb, hdec⟩ := trim_decomp q
      rcases List.eq_nil_or_concat (trimL q) with hnil | ⟨p0, cl', hp0⟩
      · exact h1 hnil
      · rw [List.concat_eq_append] at hp0
        rw [hp0, List.getLast?_concat] at hlast
        injection hlast with hcl'
        rw [hcl'] at hp0
        cases hy2 : y with
        | nil => rw [hy2] at hhead; simp at hhead
        | cons cf' ytail =>
          rw [hy2] at hhead
          simp only [List.head?_cons, Option.some.injEq] at hhead
          subst hhead
          cases qs' with
          | nil => simp at hy
          | cons q2 qs'' =>
            have hJ : joinNl (q :: q2 :: qs'') =
                (wa ++ p0) ++ cl :: ((wb ++ '\n' :: m) ++ cf' :: (ytail ++ rest')) := by
              rw [show joinNl (q :: q2 :: qs'') = q ++ '\n' :: joinNl (q2 :: qs'') from rfl,
                hdec, hp0, heqJ, hy2]
              simp [List.append_assoc]
            have hwalls : allWs (wb ++ '\n' :: m) := by
              intro x hx
              rcases List.mem_append.mp hx with hx1 | hx2
              · exact hwb x hx1
              · rcases List.mem_cons.mp hx2 with rfl | hx3
                · rfl
                · exact hm x hx3
            have hsp := hcl (wa ++ p0) cl (wb ++ '\n' :: m) cf' (ytail ++ rest')
              hJ hpunct hwalls hupper
            have hnl : ('\n' : Char) ∈ wb ++ '\n' :: m :=
              List.mem_append_right wb (List.mem_cons_self _ _)
            rw [hsp] at hnl
            simp at hnl

/-- Cleanliness of an append: both parts clean plus a boundary condition
for a punctuation-whitespace suffix of the left part meeting a
whitespace-capital boundary of the right part. -/
theorem Clean_append {X Y : List Char} (hX : Clean X) (hY : Clean Y)
    (hbd : ∀ a cl w1 w2 d b, X = a ++ cl :: w1 → allWs w1 → Y = w2 ++ d :: b →
      allWs w2 → isPunct cl = true → isUpper d = true → w1 ++ w2 = [' ']) :
    Clean (X ++ Y) := by
  intro a c w d b heq hp hw hu
  rcases List.append_eq_append_iff.mp heq with ⟨a', _, hY2⟩ | ⟨c', hX2, h2⟩
  · exact hY a' c w d b hY2 hp hw hu
  · cases c' with
    | nil =>
      simp only [List.nil_append] at h2
      exact hY [] c w d b h2.symm hp hw hu
    | cons e c'' =>
      simp only [List.cons_append] at h2
      injection h2 with he h3
      rcases List.append_eq_append_iff.mp h3 with ⟨t, hc2, hdb⟩ | ⟨t, hwt, hYt⟩
      · cases t with
        | nil =>
          rw [List.append_nil] at hc2
          simp only [List.nil_append] at hdb
          have hb := hbd a c w [] d b
            (by rw [hX2, ← he, hc2]) hw (by rw [← hdb]; rfl)
            (fun x hx => absurd hx (List.not_mem_nil x)) hp hu
          simpa using hb
        | cons d' t' =>
          simp only [List.cons_append] at hdb
          injection hdb with hdd hbb
          exact hX a c w d t'
            (by rw [hX2, ← he, hc2, ← hdd]) hp hw hu
      · have hws1 : allWs c'' := fun x hx => hw x (by rw [hwt]; exact List.mem_append_left t hx)
        have hws2 : allWs t := fun x hx => hw x (by rw [hwt]; exact List.mem_append_right c'' hx)
        have hb := hbd a c c'' t d b (by rw [hX2, ← he]) hws1 hYt hws2 hp hu
        rw [hwt]
        exact hb

/-- A paragraph join starting at `q` begins with `q` itself. -/
theorem joinParas_cons_part (q : List Char) (ps : List (List Char)) :
    ∃ T, joinParas (q :: ps) = q ++ T := by
  cases ps with
  | nil => exact ⟨[], (List.append_nil q).symm⟩
  | cons r ps' => exact ⟨'\n' :: '\n' :: joinParas (r :: ps'), rfl⟩

/-- A paragraph join of clean, non-empty, trimmed paragraphs whose adjacent
pairs satisfy the boundary condition is itself clean. -/
theorem Clean_joinParas (ps : List (List Char))
    (hprops : ∀ p ∈ ps, p ≠ [] ∧ trimL p = p)
    (hclean : ∀ p ∈ ps, Clean p)
    (hchain : List.Chain' BCrel ps) :
    Clean (joinParas ps) := by
  induction ps with
  | nil => exact Clean_nil
  | cons p ps' ih =>
    cases ps' with
    | nil => exact hclean p (by simp)
    | cons q ps'' =>
      have hbc : BCrel p q := (List.chain'_cons.mp hchain).1
      have hchain' := (List.chain'_cons.mp hchain).2
      have hrest : Clean (joinParas (q :: ps'')) :=
        ih (fun r hr => hprops r (List.mem_cons_of_mem p hr))
          (fun r hr => hclean r (List.mem_cons_of_mem p hr)) hchain'
      show Clean (p ++ '\n' :: '\n' :: joinParas (q :: ps''))
      have hY : Clean ('\n' :: '\n' :: joinParas (q :: ps'')) :=
        Clean_cons (Clean_cons hrest (fun hp' => absurd hp' (by decide)))
          (fun hp' => absurd hp' (by decide))
      apply Clean_append (hclean p (by simp)) hY
      intro a cl w1 w2 d b hXeq hw1 hYeq hw2 hpunct hupper
      have hptrim := (hprops p (by simp)).2
      have hw1nil : w1 = [] := by
        rcases List.eq_nil_or_concat w1 with rfl | ⟨w1', x, rfl⟩
        · rfl
        · rw [List.concat_eq_append] at hXeq
          have hx : isWs x = true := hw1 x (by rw [List.concat_eq_append]; simp)
          have hlast : p.getLast? = some x := by
            rw [hXeq, show a ++ cl :: (w1' ++ [x]) = (a ++ cl :: w1') ++ [x] from by
              simp [List.append_assoc]]
            exact List.getLast?_concat _
          have hnw := getLast?_trimL_not_ws p x
          rw [hptrim] at hnw
          rw [hnw hlast] at hx
          exact absurd hx (by simp)
      subst hw1nil
      have hlastp : p.getLast? = some cl := by
        rw [hXeq, show a ++ cl :: ([] : List Char) = a ++ [cl] from rfl]
        exact List.getLast?_concat _
      obtain ⟨hqne, hqtrim⟩ := hprops q (by simp)
      obtain ⟨T, hT⟩ := joinParas_cons_part q ps''
      cases w2 with
      | nil =>
        simp only [List.nil_append] at hYeq
        injection hYeq with h1 _
        rw [← h1] at hupper
        exact absurd hupper (by decide)
      | cons e1 w2' =>
        simp only [List.cons_append] at hYeq
        injection hYeq with h1 h2
        cases w2' with
        | nil =>
          simp only [List.nil_append] at h2
          injection h2 with h3 _
          rw [← h3] at hupper
          exact absurd hupper (by decide)
        | cons e2 w2'' =>
          simp only [List.cons_append] at h2
          injection h2 with h3 h4
          cases hq : q with
          | nil => exact absurd hq hqne
          | cons cf qtail =>
            rw [hT, hq] at h4
            simp only [List.cons_append] at h4
            cases w2'' with
            | nil =>
              simp only [List.nil_append] at h4
              injection h4 with h5 _
              exact (hbc cl cf hlastp (by rw [hq]; rfl) hpunct
                (by rw [h5]; exact hupper)).elim
            | cons e3 w2''' =>
              simp only [List.cons_append] at h4
              injection h4 with h5 _
              have he3 : isWs e3 = true := hw2 e3 (by simp)
              have hnw := head?_trimL_not_ws q cf
              rw [hqtrim] at hnw
              have hcf : isWs cf = false := hnw (by rw [hq]; rfl)
              rw [← h5] at he3
              rw [hcf] at he3
              exact absurd he3 (by simp)

/-- The `server.js` formatter pipeline is idempotent on character lists:
its output is clean (single spaces between sentence punctuation and
capitals, even across paragraph boundaries), so the punctuation replace,
the newline collapse, the trim and the line pass all fix it. -/
theorem serverJS_formatSummaryL_idem (l : List Char) :
    ServerJS.formatSummaryL (ServerJS.formatSummaryL l) = ServerJS.formatSummaryL l := by
  have hprops := formatLines_props (fixPunct (trimL (collapseNl3 l)))
  have hCleanU : Clean (fixPunct (trimL (collapseNl3 l))) := Clean_fixPunct _
  have hcleanPs : ∀ p ∈ formatLines (fixPunct (trimL (collapseNl3 l))), Clean p := by
    intro p hp
    unfold formatLines at hp
    rw [List.mem_filter] at hp
    obtain ⟨hmem, _⟩ := hp
    rw [List.mem_map] at hmem
    obtain ⟨q, hq, rfl⟩ := hmem
    obtain ⟨s, t, hst⟩ := splitNl_mem_part hq
    have hsq : Clean (s ++ (q ++ t)) := by rw [hst]; exact hCleanU
    exact Clean_trimL (Clean_append_left (Clean_append_right hsq))
  have hchain : List.Chain' BCrel (formatLines (fixPunct (trimL (collapseNl3 l)))) := by
    have h := chain_of_clean (splitNl (fixPunct (trimL (collapseNl3 l)))) (by
      rw [joinNl_splitNl]; exact hCleanU)
    exact h
  have hCleanOut : Clean (joinParas (formatLines (fixPunct (trimL (collapseNl3 l))))) :=
    Clean_joinParas _ (fun p hp => ⟨(hprops p hp).1, (hprops p hp).2.1⟩) hcleanPs hchain
  show joinParas (formatLines (fixPunct (trimL (collapseNl3
      (joinParas (formatLines (fixPunct (trimL (collapseNl3 l))))))))) =
    joinParas (formatLines (fixPunct (trimL (collapseNl3 l))))
  rw [collapseNl3_joinParas _ (fun p hp => ⟨(hprops p hp).1, (hprops p hp).2.2⟩)]
  rw [trimL_joinParas _ (fun p hp => ⟨(hprops p hp).1, (hprops p hp).2.1⟩)]
  rw [fixPunct_eq_self_of_clean hCleanOut]
  rw [formatLines_joinParas _ hprops]

/-- Claim C9: both variants of the response formatter are idempotent — for
every string, applying `formatSummary` to its own output returns that
output unchanged, so the formatter is the identity on its image. -/
theorem c9_format_idempotent (t : String) :
    Part000.formatSummary (Part000.formatSummary t) = Part000.formatSummary t ∧
    ServerJS.formatSummary (ServerJS.formatSummary t) = ServerJS.formatSummary t :=
  ⟨congrArg String.mk (part000_formatSummaryL_idem t.data),
   congrArg String.mk (serverJS_formatSummaryL_idem t.data)⟩
